import Mathlib

/-!
Shallow embedding of the `shopping_receipt_recognizer` repository.

Text is modelled as `List Char`; Python regular expressions are modelled by
specialised matchers that reproduce the leftmost-match / greedy / lazy
semantics of the concrete patterns appearing in `src/parser.py`.
Monetary values are modelled as `ℚ` (the captured tokens have at most two
fractional decimal digits, so the float conversion is exact enough to be
represented by rationals), machine integers as `Int`/`Nat`.
Image data (`src/receipt_processor.py`, `src/utils.py`, `src/ocr_engine.py`)
is modelled by a free term algebra `Img` over the OpenCV transforms, with the
contour data returned by `cv2.findContours`/`cv2.approxPolyDP` supplied as an
oracle input, and the OCR engine as a black-box function `Img → List Char`.
-/

namespace Receipt

/-- ASCII whitespace: the characters stripped by Python `str.strip()` and
matched by `\s` on ASCII text. -/
def isSpaceC (c : Char) : Bool :=
  c = ' ' || c = '\t' || c = '\n' || c = '\r' || c = '\x0b' || c = '\x0c'

/-- Case folding used for `re.IGNORECASE` (ASCII). -/
def lowerC (c : Char) : Char := c.toLower

/-- `[0-9]` -/
def isDigitC (c : Char) : Bool := c.isDigit

/-- `[A-Za-z]` (also Python `str.isalpha` restricted to ASCII). -/
def isAlphaC (c : Char) : Bool := c.isAlpha

/-- `\w` (ASCII): alphanumeric or underscore. -/
def isWordC (c : Char) : Bool := c.isAlphanum || c = '_'

/-- `[A-Za-z0-9\-]` -/
def isValC (c : Char) : Bool := c.isAlphanum || c = '-'

/-- Python `str.strip()` on a character list. -/
def trimChars (l : List Char) : List Char :=
  ((l.dropWhile isSpaceC).reverse.dropWhile isSpaceC).reverse

/-- Split at newline characters (Python `str.splitlines`; the difference in
trailing-empty-piece handling is immaterial because blank lines are dropped
right afterwards). -/
def splitNl : List Char → List (List Char)
  | [] => [[]]
  | c :: rest =>
    if c = '\n' then [] :: splitNl rest
    else
      match splitNl rest with
      | [] => [[c]]
      | p :: ps => (c :: p) :: ps

/-- `[ln.strip() for ln in text.splitlines() if ln.strip()]` -/
def cleanLines (text : List Char) : List (List Char) :=
  ((splitNl text).map trimChars).filter (fun l => !l.isEmpty)

/-- Decimal value of a digit token. -/
def digitsToNat (ds : List Char) : Nat :=
  ds.foldl (fun a c => a * 10 + (c.toNat - '0'.toNat)) 0

/-- Python `int(s)` on the captured quantity token (`none` models `ValueError`). -/
def parseIntDigits (ds : List Char) : Option Int :=
  if !ds.isEmpty && ds.all isDigitC then some (digitsToNat ds) else none

/-- Python `float(val)` after `val.replace(',', '.')`, on tokens of shape
`[0-9]+` or `[0-9]+[.,][0-9]{1,2}` (`none` models `ValueError`). -/
def parseMoney (tok : List Char) : Option ℚ :=
  let t := tok.map (fun c => if c = ',' then '.' else c)
  let ip := t.takeWhile (fun c => c ≠ '.')
  let rest := t.drop ip.length
  if ip.isEmpty || !ip.all isDigitC then none
  else
    match rest with
    | [] => some (mkRat (digitsToNat ip) 1)
    | _ :: fp =>
      if !fp.isEmpty && fp.all isDigitC then
        some (mkRat (digitsToNat ip * 10 ^ fp.length + digitsToNat fp) (10 ^ fp.length))
      else none

/-- Greedy match of `([0-9]+(?:[\,\.][0-9]{1,2})?)` at the head of `s`,
returning the captured token.  All character classes involved are pairwise
disjoint, so greedy matching without backtracking is exact here. -/
def matchNumber (s : List Char) : Option (List Char) :=
  let ds := s.takeWhile isDigitC
  if ds.isEmpty then none
  else
    match s.drop ds.length with
    | c :: r2 =>
      if c = ',' || c = '.' then
        let fs := (r2.takeWhile isDigitC).take 2
        if fs.isEmpty then some ds else some (ds ++ c :: fs)
      else some ds
    | [] => some ds

/-- Tokens of the label patterns of `find_amount`:
literal character (case-insensitive), `\s*`, `-?`. -/
inductive LTok where
  | lit (c : Char)
  | wsStar
  | optDash
deriving DecidableEq

abbrev LPat := List LTok

/-- A pattern made of literal characters only (stored lowercase). -/
def litP (s : String) : LPat := s.data.map LTok.lit

/-- Match a label pattern case-insensitively at the head of the text, returning
the remaining suffix.  `\s*` is greedy; since every `\s*`/`-?` in the source
patterns is followed by a literal letter, greedy matching is exact. -/
def matchLabel : LPat → List Char → Option (List Char)
  | [], s => some s
  | LTok.lit _ :: _, [] => none
  | LTok.lit a :: p, c :: s => if lowerC c = a then matchLabel p s else none
  | LTok.wsStar :: p, s => matchLabel p (s.dropWhile isSpaceC)
  | LTok.optDash :: p, s =>
    match s with
    | '-' :: s2 => matchLabel p s2
    | _ => matchLabel p s

/-- `\s*[:#=]?\s*` followed by the numeric capture of `find_amount`'s pattern.
The classes (whitespace, `:#=`, digits) are disjoint, so the greedy reading is
exact. -/
def matchAfterLabel (s : List Char) : Option (List Char) :=
  let s1 := s.dropWhile isSpaceC
  let s2 :=
    match s1 with
    | c :: r => if c = ':' || c = '#' || c = '=' then r else s1
    | [] => s1
  matchNumber (s2.dropWhile isSpaceC)

/-- `re.search(lab + "\s*[:#=]?\s*(num)", text, re.IGNORECASE)`: try every start
position from the left, return the first successful capture. -/
def searchLabelNum (p : LPat) : List Char → Option (List Char)
  | [] => (matchLabel p []).bind matchAfterLabel
  | c :: rest =>
    match (matchLabel p (c :: rest)).bind matchAfterLabel with
    | some tok => some tok
    | none => searchLabelNum p rest

/-- `find_amount` from `src/parser.py` (closure over `text`): first label
variant whose pattern matches wins; once a variant matched, its captured token
is converted (a conversion failure yields `None` without trying further
variants — the `except: return None` branch). -/
def find_amount (pats : List LPat) (text : List Char) : Option ℚ :=
  match pats with
  | [] => none
  | p :: rest =>
    match searchLabelNum p text with
    | some tok => parseMoney tok
    | none => find_amount rest text

/-- `[r"Sub\s*Total", r"Subtotal", r"Sub-?Total"]` -/
def subtotalPats : List LPat :=
  [litP "sub" ++ [LTok.wsStar] ++ litP "total",
   litP "subtotal",
   litP "sub" ++ [LTok.optDash] ++ litP "total"]

/-- `[r"Total", r"TOTAL"]` (identical under `re.IGNORECASE`). -/
def totalPats : List LPat := [litP "total", litP "total"]

/-- `[r"Cash", r"CASH"]` -/
def cashPats : List LPat := [litP "cash", litP "cash"]

/-- `[r"Change", r"Balance", r"Return"]` -/
def changePats : List LPat := [litP "change", litP "balance", litP "return"]

/-- `\s*[:#]?\s*([A-Za-z0-9\-]+)`: the tail of the cashier/bill patterns after
`\w*`; returns the captured value group. -/
def tryKeyTail (s : List Char) : Option (List Char) :=
  let t1 := s.dropWhile isSpaceC
  let t2 :=
    match t1 with
    | c :: r => if c = ':' || c = '#' then r else t1
    | [] => t1
  let v := (t2.dropWhile isSpaceC).takeWhile isValC
  if v.isEmpty then none else some v

/-- Greedy `\w*` with backtracking: try consuming `k` word characters, then
`k-1`, ..., then `0`, and take the first suffix on which the key tail
matches. -/
def tryWordStar : Nat → List Char → Option (List Char)
  | 0, s => tryKeyTail s
  | k + 1, s =>
    match tryKeyTail (s.drop (k + 1)) with
    | some v => some v
    | none => tryWordStar k s

/-- `re.search(root + "\w*\s*[:#]?\s*([A-Za-z0-9\-]+)", text, re.IGNORECASE)`,
returning group 2 (the value token). -/
def searchKeyVal (root : LPat) : List Char → Option (List Char)
  | [] => none
  | c :: rest =>
    match matchLabel root (c :: rest) with
    | some s2 =>
      match tryWordStar (s2.takeWhile isWordC).length s2 with
      | some v => some v
      | none => searchKeyVal root rest
    | none => searchKeyVal root rest

/-- The price capture `([0-9]+(?:[\,\.][0-9]{1,2})?)` anchored by `$`: the
token must extend exactly to the end of the line.  The fractional part
backtracks from two digits down to one against the end anchor. -/
def numberToEnd (s : List Char) : Option (List Char) :=
  let ds := s.takeWhile isDigitC
  if ds.isEmpty then none
  else
    match s.drop ds.length with
    | [] => some ds
    | c :: r2 =>
      if c = ',' || c = '.' then
        match r2 with
        | [d1] => if isDigitC d1 then some (ds ++ [c, d1]) else none
        | [d1, d2] => if isDigitC d1 && isDigitC d2 then some (ds ++ [c, d1, d2]) else none
        | _ => none
      else none

/-- `([0-9]{n})\s+(price)$` for a fixed quantity-digit count `n`. -/
def tryQty (n : Nat) (after : List Char) : Option (List Char × List Char) :=
  let qds := after.take n
  if qds.length = n && qds.all isDigitC then
    let r := after.drop n
    let ws := r.takeWhile isSpaceC
    if ws.isEmpty then none
    else (numberToEnd (r.drop ws.length)).map (fun pr => (qds, pr))
  else none

/-- `([0-9]{1,3})\s+(price)$`, greedy on the quantity width (3, then 2, then 1). -/
def qtyPrice (after : List Char) : Option (List Char × List Char) :=
  match tryQty 3 after with
  | some x => some x
  | none =>
    match tryQty 2 after with
    | some x => some x
    | none => tryQty 1 after

/-- The lazy `(.+?)` of `item_re`: grow the name one character at a time and
try the rest of the pattern after each extension; the shortest name whose
continuation matches wins.  Returns `(name, qtyToken, priceToken)`. -/
def itemScan (nameRev : List Char) : List Char → Option (List Char × List Char × List Char)
  | [] => none
  | c :: r =>
    let nameRev2 := c :: nameRev
    let ws := r.takeWhile isSpaceC
    match (if ws.isEmpty then none
           else (qtyPrice (r.drop ws.length)).map fun qp => (nameRev2.reverse, qp.1, qp.2)) with
    | some x => some x
    | none => itemScan nameRev2 r

/-- `item_re.match(ln)` for
`item_re = re.compile(r"(.+?)\s+([0-9]{1,3})\s+([0-9]+(?:[\,\.][0-9]{1,2})?)$")`. -/
def itemMatch (ln : List Char) : Option (List Char × List Char × List Char) :=
  itemScan [] ln

structure Item where
  name : List Char
  qty : Int
  price : ℚ
deriving DecidableEq

/-- One iteration of the item loop of `parse_receipt_text`: strip the name,
parse the quantity (defaulting to 1 on failure) and the price, and accept only
if the name is non-empty, contains a letter, and the price parsed. -/
def lineItem (ln : List Char) : Option Item :=
  match itemMatch ln with
  | none => none
  | some (nm, qds, pds) =>
    let name := trimChars nm
    let qty : Int := (parseIntDigits qds).getD 1
    match parseMoney pds with
    | none => none
    | some price =>
      if !name.isEmpty && name.any isAlphaC then some ⟨name, qty, price⟩ else none

/-- The merchant loop: first of the given lines with length ≥ 3 containing a
letter (`re.search(r"[A-Za-z]", ln)`). -/
def findMerchant : List (List Char) → Option (List Char)
  | [] => none
  | ln :: rest =>
    if 3 ≤ ln.length ∧ ln.any isAlphaC then some ln else findMerchant rest

structure ParsedReceipt where
  raw_text : List Char
  merchant : Option (List Char)
  cashier : Option (List Char)
  bill_no : Option (List Char)
  items : List Item
  subtotal : Option ℚ
  total : Option ℚ
  cash : Option ℚ
  change : Option ℚ
deriving DecidableEq

/-- Root of the cashier pattern `Cashier\w*\s*[:#]?\s*([A-Za-z0-9\-]+)`. -/
def cashierRoot : LPat := litP "cashier"

/-- Root of the bill pattern `Bill\w*\s*[:#]?\s*([A-Za-z0-9\-]+)`. -/
def billRoot : LPat := litP "bill"

/-- `parse_receipt_text` from `src/parser.py`.  The `other_fields` entry of the
source dictionary is always the empty mapping and is omitted. -/
def parse_receipt_text (text : List Char) : ParsedReceipt :=
  let lines := cleanLines text
  { raw_text := text
    merchant := findMerchant (lines.take 6)
    cashier := searchKeyVal cashierRoot text
    bill_no := searchKeyVal billRoot text
    items := lines.filterMap lineItem
    subtotal := find_amount subtotalPats text
    total := find_amount totalPats text
    cash := find_amount cashPats text
    change := find_amount changePats text }

/-! ### Geometry utilities (`src/utils.py`) -/

/-- A point of the plane (`float32` coordinates modelled by `ℚ`). -/
abbrev Pt := ℚ × ℚ

/-- First index of the minimum (`np.argmin`: ties resolved to the earliest
element), returning the element itself. -/
def firstMinBy {α : Type} (f : α → ℚ) : List α → Option α
  | [] => none
  | p :: rest =>
    match firstMinBy f rest with
    | none => some p
    | some q => some (if f p ≤ f q then p else q)

/-- First index of the maximum (`np.argmax`), returning the element itself. -/
def firstMaxBy {α : Type} (f : α → ℚ) : List α → Option α
  | [] => none
  | p :: rest =>
    match firstMaxBy f rest with
    | none => some p
    | some q => some (if f q ≤ f p then p else q)

/-- `pts.sum(axis=1)`: x + y. -/
def ptSum (p : Pt) : ℚ := p.1 + p.2

/-- `np.diff(pts, axis=1)`: y − x. -/
def ptDiff (p : Pt) : ℚ := p.2 - p.1

def zeroPt : Pt := (0, 0)

/-- `order_points` from `src/utils.py`:
`rect = [pts[argmin s], pts[argmin diff], pts[argmax s], pts[argmax diff]]`,
intended as `[top-left, top-right, bottom-right, bottom-left]`. -/
def order_points (pts : List Pt) : List Pt :=
  [(firstMinBy ptSum pts).getD zeroPt,
   (firstMinBy ptDiff pts).getD zeroPt,
   (firstMaxBy ptSum pts).getD zeroPt,
   (firstMaxBy ptDiff pts).getD zeroPt]

/-! ### Preprocessing pipeline (`src/receipt_processor.py`) -/

/-- Free term algebra over the OpenCV image transforms: the pipeline only ever
passes these values around, so distinct transform applications are modelled as
distinct terms. -/
inductive Img where
  | src (n : Nat)
  | grayOf (i : Img)
  | claheOf (i : Img)
  | blurOf (i : Img)
  | cannyOf (i : Img)
  | warpOf (i : Img) (pts : List Pt)
  | threshAdaptiveOf (i : Img)
  | threshOtsuOf (i : Img)
  | morphOf (i : Img)
deriving DecidableEq

/-- `four_point_transform` from `src/utils.py`: orders the corners via
`order_points`, computes the target rectangle, and resamples the image through
the perspective map.  The pixel content and dimensions of the produced image
are abstracted by the `Img.warpOf` term over the ordered corners.  The
function is total: `cv2.getPerspectiveTransform` solves its linear system
without raising even on degenerate corner sets, and `cv2.warpPerspective`
substitutes the source size whenever the destination size has zero area
(`_dst.create(dsize.area() == 0 ? src.size() : dsize, ...)` in imgwarp.cpp),
so for contour-derived inputs no exception is raised and the defensive
`try/except` around the call in `ReceiptProcessor.process` never fires. -/
def four_point_transform (img : Img) (pts : List Pt) : Img :=
  Img.warpOf img (order_points pts)

/-- One contour as returned by `cv2.findContours` on the edge map, together
with its `cv2.contourArea` and the polygon `cv2.approxPolyDP(c, 0.02*peri,
True)` computes for it (oracle data for the external cv2 calls). -/
structure Contour where
  area : ℚ
  approx : List Pt
deriving DecidableEq

/-- Insert into a list sorted by area descending, keeping the inserted
element before later elements of equal area (stability of Python `sorted`). -/
def insertByArea (c : Contour) : List Contour → List Contour
  | [] => [c]
  | d :: ds => if d.area ≤ c.area then c :: d :: ds else d :: insertByArea c ds

/-- `sorted(cnts, key=cv2.contourArea, reverse=True)` (stable). -/
def sortByArea : List Contour → List Contour
  | [] => []
  | c :: cs => insertByArea c (sortByArea cs)

/-- The contour loop of `ReceiptProcessor.process`: among the 10 largest
contours, the first whose approximation has exactly 4 vertices. -/
def acceptQuad (cnts : List Contour) : Option (List Pt) :=
  ((sortByArea cnts).take 10).findSome? fun c =>
    if c.approx.length = 4 then some c.approx else none

/-- `ProcessResult` from `src/receipt_processor.py`.  In the model the
`ocr_ready` and `gray` fields are total (never null) by type; `warped` is the
only optional field.  The `steps` dictionary is pure logging and omitted. -/
structure ProcessResult where
  ocr_ready : Img
  gray : Img
  warped : Option Img
deriving DecidableEq

/-- `ReceiptProcessor.process` (the image-valued part): `cnts` stands for the
contours cv2 finds on the Canny edge map of the blurred CLAHE image. -/
def process (image : Img) (cnts : List Contour) (adaptive : Bool) : ProcessResult :=
  let gray := Img.grayOf image
  let warped := (acceptQuad cnts).map (four_point_transform gray)
  let working := warped.getD gray
  let th := if adaptive then Img.threshAdaptiveOf working else Img.threshOtsuOf working
  { ocr_ready := Img.morphOf th, gray := gray, warped := warped }

/-! ### OCR consumption (`src/ocr_engine.py`) -/

/-- Python `.strip()` applied to the OCR output. -/
def pyStrip (s : List Char) : List Char := trimChars s

/-- `ocr_image` from `src/ocr_engine.py` in its `ProcessResult` case; `engine`
is the black-box `pytesseract.image_to_string` with fixed language/psm. -/
def ocr_image (engine : Img → List Char) (r : ProcessResult) : List Char :=
  let text := pyStrip (engine r.ocr_ready)
  let text2 :=
    if text.isEmpty then
      match r.warped with
      | some w => pyStrip (engine w)
      | none => text
    else text
  if text2.isEmpty then pyStrip (engine r.gray) else text2

/-- Head literal of a label pattern, if any. -/
def headLit : LPat → Option Char
  | LTok.lit a :: _ => some a
  | _ => none

/-! ### Helper lemmas -/

theorem lowerC_of_space (c : Char) (h : isSpaceC c = true) : lowerC c = c := by
  simp only [isSpaceC, Bool.or_eq_true, decide_eq_true_eq] at h
  rcases h with ((((h | h) | h) | h) | h) | h <;> subst h <;> decide

theorem matchLabel_head_ne (p : LPat) (a c : Char) (s : List Char)
    (hp : headLit p = some a) (h : lowerC c ≠ a) : matchLabel p (c :: s) = none := by
  cases p with
  | nil => simp [headLit] at hp
  | cons t p2 =>
    cases t with
    | lit b =>
      simp only [headLit, Option.some.injEq] at hp
      subst hp
      simp [matchLabel, h]
    | wsStar => simp [headLit] at hp
    | optDash => simp [headLit] at hp

theorem matchLabel_nil_of_headLit (p : LPat) (a : Char) (hp : headLit p = some a) :
    matchLabel p [] = none := by
  cases p with
  | nil => simp [headLit] at hp
  | cons t p2 =>
    cases t with
    | lit b => rfl
    | wsStar => simp [headLit] at hp
    | optDash => simp [headLit] at hp

theorem searchLabelNum_of_space (p : LPat) (a : Char) (s : List Char)
    (hp : headLit p = some a) (ha : isSpaceC a = false)
    (h : ∀ c ∈ s, isSpaceC c = true) : searchLabelNum p s = none := by
  induction s with
  | nil => simp [searchLabelNum, matchLabel_nil_of_headLit p a hp]
  | cons c rest ih =>
    have hc : isSpaceC c = true := h c (List.mem_cons_self c rest)
    have hne : lowerC c ≠ a := by
      rw [lowerC_of_space c hc]
      intro e
      rw [e, ha] at hc
      exact Bool.false_ne_true hc
    simp only [searchLabelNum, matchLabel_head_ne p a c rest hp hne, Option.none_bind]
    exact ih fun x hx => h x (List.mem_cons_of_mem c hx)

theorem searchKeyVal_of_space (root : LPat) (a : Char) (s : List Char)
    (hp : headLit root = some a) (ha : isSpaceC a = false)
    (h : ∀ c ∈ s, isSpaceC c = true) : searchKeyVal root s = none := by
  induction s with
  | nil => rfl
  | cons c rest ih =>
    have hc : isSpaceC c = true := h c (List.mem_cons_self c rest)
    have hne : lowerC c ≠ a := by
      rw [lowerC_of_space c hc]
      intro e
      rw [e, ha] at hc
      exact Bool.false_ne_true hc
    simp only [searchKeyVal, matchLabel_head_ne root a c rest hp hne]
    exact ih fun x hx => h x (List.mem_cons_of_mem c hx)

theorem find_amount_cons_none (p : LPat) (rest : List LPat) (t : List Char)
    (h : searchLabelNum p t = none) : find_amount (p :: rest) t = find_amount rest t := by
  simp [find_amount, h]

theorem trimChars_of_space (l : List Char) (h : ∀ c ∈ l, isSpaceC c = true) :
    trimChars l = [] := by
  unfold trimChars
  have h1 : l.dropWhile isSpaceC = [] := by
    rw [List.dropWhile_eq_nil_iff]
    exact h
  rw [h1]
  rfl

theorem splitNl_chars (l : List Char) :
    ∀ p ∈ splitNl l, ∀ c ∈ p, c ∈ l := by
  induction l with
  | nil =>
    intro p hp c hc
    simp only [splitNl, List.mem_singleton] at hp
    subst hp
    exact absurd hc (List.not_mem_nil c)
  | cons a rest ih =>
    intro p hp c hc
    by_cases ha : a = '\n'
    · simp only [splitNl, if_pos ha] at hp
      rcases List.mem_cons.1 hp with h1 | h1
      · subst h1
        exact absurd hc (List.not_mem_nil c)
      · exact List.mem_cons_of_mem a (ih p h1 c hc)
    · simp only [splitNl, if_neg ha] at hp
      cases hsp : splitNl rest with
      | nil =>
        rw [hsp] at hp
        simp only [List.mem_singleton] at hp
        subst hp
        rcases List.mem_cons.1 hc with h1 | h1
        · exact h1 ▸ List.mem_cons_self a rest
        · exact absurd h1 (List.not_mem_nil c)
      | cons q qs =>
        rw [hsp] at hp
        rcases List.mem_cons.1 hp with h1 | h1
        · subst h1
          rcases List.mem_cons.1 hc with h2 | h2
          · exact h2 ▸ List.mem_cons_self a rest
          · exact List.mem_cons_of_mem a (ih q (hsp ▸ List.mem_cons_self q qs) c h2)
        · exact List.mem_cons_of_mem a (ih p (hsp ▸ List.mem_cons_of_mem q h1) c hc)

theorem cleanLines_of_space (l : List Char) (h : ∀ c ∈ l, isSpaceC c = true) :
    cleanLines l = [] := by
  unfold cleanLines
  rw [List.filter_eq_nil_iff]
  intro x hx
  obtain ⟨p, hp, rfl⟩ := List.mem_map.1 hx
  have ht : trimChars p = [] :=
    trimChars_of_space p (fun c hc => h c (splitNl_chars l p hp c hc))
  simp [ht]

/-! ### Claim C1 -/

/-- C1 (counterexample): the claim asserts that on whitespace-only input the
record's `raw_text` equals `""`; but `parse_receipt_text` stores the input text
unmodified, so on the whitespace-only input `" "` the `raw_text` field is
`" "`, not `""`. -/
theorem c1_counterexample :
    ([' '] : List Char).all isSpaceC = true ∧
      (parse_receipt_text [' ']).raw_text = [' '] ∧
      (parse_receipt_text [' ']).raw_text ≠ [] := by
  refine ⟨rfl, rfl, ?_⟩
  decide

/-- C1 (amended): `parse_receipt_text` is a total function (it never raises),
and on every empty or whitespace-only input it returns the record with
`raw_text` equal to the input text (unmodified), `merchant`, `cashier`,
`bill_no`, `subtotal`, `total`, `cash`, `change` all absent, and `items` the
empty list. -/
theorem c1_whitespace_only_record (text : List Char)
    (h : ∀ c ∈ text, isSpaceC c = true) :
    parse_receipt_text text =
      { raw_text := text, merchant := none, cashier := none, bill_no := none,
        items := [], subtotal := none, total := none, cash := none, change := none } := by
  have hcl : cleanLines text = [] := cleanLines_of_space text h
  have hcashier : searchKeyVal cashierRoot text = none :=
    searchKeyVal_of_space cashierRoot 'c' text (by decide) rfl h
  have hbill : searchKeyVal billRoot text = none :=
    searchKeyVal_of_space billRoot 'b' text (by decide) rfl h
  have hsubtotal : find_amount subtotalPats text = none := by
    unfold subtotalPats
    rw [find_amount_cons_none _ _ _ (searchLabelNum_of_space _ 's' text (by decide) rfl h),
        find_amount_cons_none _ _ _ (searchLabelNum_of_space _ 's' text (by decide) rfl h),
        find_amount_cons_none _ _ _ (searchLabelNum_of_space _ 's' text (by decide) rfl h)]
    rfl
  have htotal : find_amount totalPats text = none := by
    unfold totalPats
    rw [find_amount_cons_none _ _ _ (searchLabelNum_of_space _ 't' text (by decide) rfl h),
        find_amount_cons_none _ _ _ (searchLabelNum_of_space _ 't' text (by decide) rfl h)]
    rfl
  have hcash : find_amount cashPats text = none := by
    unfold cashPats
    rw [find_amount_cons_none _ _ _ (searchLabelNum_of_space _ 'c' text (by decide) rfl h),
        find_amount_cons_none _ _ _ (searchLabelNum_of_space _ 'c' text (by decide) rfl h)]
    rfl
  have hchange : find_amount changePats text = none := by
    unfold changePats
    rw [find_amount_cons_none _ _ _ (searchLabelNum_of_space _ 'c' text (by decide) rfl h),
        find_amount_cons_none _ _ _ (searchLabelNum_of_space _ 'b' text (by decide) rfl h),
        find_amount_cons_none _ _ _ (searchLabelNum_of_space _ 'r' text (by decide) rfl h)]
    rfl
  simp only [parse_receipt_text, hcl, hcashier, hbill, hsubtotal, htotal, hcash, hchange,
    List.take_nil, List.filterMap_nil]
  rfl

/-- C1 (witness): the amended theorem applied to the concrete whitespace-only
input `" \n "`. -/
theorem c1_witness :
    (∀ c ∈ " \n ".data, isSpaceC c = true) ∧
      parse_receipt_text " \n ".data =
        { raw_text := " \n ".data, merchant := none, cashier := none, bill_no := none,
          items := [], subtotal := none, total := none, cash := none, change := none } :=
  ⟨by decide, c1_whitespace_only_record _ (by decide)⟩

/-! ### Claim C3 -/

/-- C3: each monetary field tries its ordered synonym list against the whole
text and the first matching synonym wins (its captured token is converted,
comma normalized to period); `find_amount` on text whose leftmost total-label
match is `"TOTAL: 12,50"` yields 12.50 (= 25/2); with no matching label the
result is absent (`none`), not 0. -/
theorem c3_find_amount_rule :
    (∀ (p : LPat) (rest : List LPat) (t tok : List Char),
        searchLabelNum p t = some tok → find_amount (p :: rest) t = parseMoney tok) ∧
      find_amount totalPats "TOTAL: 12,50".data = some (mkRat 25 2) ∧
      (mkRat 25 2 : ℚ) = 12 + 50 / 100 ∧
      find_amount totalPats "The grand amount is 12,50".data = none := by
  refine ⟨?_, by decide, ?_, by decide⟩
  · intro p rest t tok h
    simp only [find_amount, h]
  · rw [Rat.mkRat_eq_div]
    norm_num

/-- C3 (witness): the first-synonym-wins rule applied at the concrete input
`"TOTAL: 12,50"`. -/
theorem c3_witness :
    searchLabelNum (litP "total") "TOTAL: 12,50".data = some "12,50".data ∧
      find_amount (litP "total" :: [litP "total"]) "TOTAL: 12,50".data
        = parseMoney "12,50".data :=
  ⟨by decide, c3_find_amount_rule.1 _ _ _ _ (by decide)⟩

/-! ### Claim C4 -/

/-- C4: an item is appended for a cleaned line exactly when the line matches
`(.+?)\s+([0-9]{1,3})\s+(price)$`, the stripped name contains a letter, and
the price parses; the quantity is `int(qty)` with default 1 on failure.
Concretely, `"Water 2 2.00"` yields `{name "Water", qty 2, price 2.00}` and
`"1234 5 6"` yields no item. -/
theorem c4_item_line_rule :
    (∀ text, (parse_receipt_text text).items = (cleanLines text).filterMap lineItem) ∧
      (∀ ln nm qds pds v, itemMatch ln = some (nm, qds, pds) →
          (trimChars nm).any isAlphaC = true → parseMoney pds = some v →
          lineItem ln = some ⟨trimChars nm, (parseIntDigits qds).getD 1, v⟩) ∧
      (∀ ln it, lineItem ln = some it →
          ∃ nm qds pds, itemMatch ln = some (nm, qds, pds) ∧
            it.name = trimChars nm ∧ (trimChars nm).any isAlphaC = true ∧
            it.qty = (parseIntDigits qds).getD 1 ∧ parseMoney pds = some it.price) ∧
      lineItem "Water 2 2.00".data = some ⟨"Water".data, 2, 2⟩ ∧
      lineItem "1234 5 6".data = none := by
  refine ⟨fun _ => rfl, ?_, ?_, by decide, by decide⟩
  · intro ln nm qds pds v hm halpha hp
    have hne : (trimChars nm).isEmpty = false := by
      cases e : trimChars nm with
      | nil => rw [e] at halpha; simp at halpha
      | cons x xs => rfl
    simp only [lineItem, hm, hp]
    rw [if_pos]
    rw [hne, halpha]
    rfl
  · intro ln it h
    unfold lineItem at h
    cases hm : itemMatch ln with
    | none => rw [hm] at h; exact absurd h (by simp)
    | some t =>
      obtain ⟨nm, qds, pds⟩ := t
      rw [hm] at h
      simp only at h
      cases hp : parseMoney pds with
      | none => rw [hp] at h; simp at h
      | some pr =>
        rw [hp] at h
        dsimp only at h
        by_cases hg : (!(trimChars nm).isEmpty && (trimChars nm).any isAlphaC) = true
        · rw [if_pos hg] at h
          have hit := Option.some.inj h
          have halpha : (trimChars nm).any isAlphaC = true := by
            simp only [Bool.and_eq_true] at hg
            exact hg.2
          refine ⟨nm, qds, pds, rfl, ?_, halpha, ?_, ?_⟩
          · rw [← hit]
          · rw [← hit]
          · rw [← hit]
            exact hp
        · rw [if_neg hg] at h
          exact absurd h (by simp)

/-- C4 (witness): the acceptance rule applied at the concrete line
`"Water 2 2.00"`. -/
theorem c4_witness :
    itemMatch "Water 2 2.00".data = some ("Water".data, ['2'], "2.00".data) ∧
      lineItem "Water 2 2.00".data
        = some ⟨trimChars "Water".data, (parseIntDigits ['2']).getD 1, 2⟩ :=
  ⟨by decide,
    c4_item_line_rule.2.1 "Water 2 2.00".data "Water".data ['2'] "2.00".data 2
      (by decide) (by decide) (by decide)⟩

/-! ### Claim C6 -/

theorem findMerchant_eq_find (ls : List (List Char)) :
    findMerchant ls = ls.find? (fun ln => decide (3 ≤ ln.length) && ln.any isAlphaC) := by
  induction ls with
  | nil => rfl
  | cons ln rest ih =>
    by_cases h1 : 3 ≤ ln.length ∧ ln.any isAlphaC = true
    · rw [List.find?_cons_of_pos]
      · simp [findMerchant, h1]
      · simp only [Bool.and_eq_true, decide_eq_true_eq]
        exact ⟨h1.1, h1.2⟩
    · rw [List.find?_cons_of_neg]
      · simp only [findMerchant]
        rw [if_neg h1]
        exact ih
      · simp only [Bool.and_eq_true, decide_eq_true_eq]
        exact fun hh => h1 ⟨hh.1, hh.2⟩

/-- C6: the merchant field equals the first of the first 6 non-blank lines
having at least 3 characters and at least one letter, and is absent when no
such line exists among them (`find?` returns `none` exactly then). -/
theorem c6_merchant_rule (text : List Char) :
    (parse_receipt_text text).merchant =
      ((cleanLines text).take 6).find? (fun ln => decide (3 ≤ ln.length) && ln.any isAlphaC) :=
  findMerchant_eq_find ((cleanLines text).take 6)

/-! ### Claim C7 -/

theorem parseIntDigits_nonneg (ds : List Char) (n : Int)
    (h : parseIntDigits ds = some n) : 0 ≤ n := by
  unfold parseIntDigits at h
  split at h
  · exact (Option.some.inj h) ▸ Int.natCast_nonneg _
  · exact absurd h (by simp)

theorem parseMoney_nonneg (tok : List Char) (v : ℚ) (h : parseMoney tok = some v) :
    0 ≤ v := by
  unfold parseMoney at h
  dsimp only at h
  split at h
  · exact absurd h (by simp)
  · split at h
    · rw [← Option.some.inj h, Rat.mkRat_eq_div]
      positivity
    · split at h
      · rw [← Option.some.inj h, Rat.mkRat_eq_div]
        positivity
      · exact absurd h (by simp)

theorem lineItem_bounds (ln : List Char) (it : Item) (h : lineItem ln = some it) :
    0 ≤ it.qty ∧ 0 ≤ it.price := by
  unfold lineItem at h
  cases hm : itemMatch ln with
  | none => rw [hm] at h; exact absurd h (by simp)
  | some t =>
    obtain ⟨nm, qds, pds⟩ := t
    rw [hm] at h
    simp only at h
    cases hp : parseMoney pds with
    | none => rw [hp] at h; simp at h
    | some pr =>
      rw [hp] at h
      dsimp only at h
      split at h
      · have hit := Option.some.inj h
        constructor
        · rw [← hit]
          cases hq : parseIntDigits qds with
          | none => simp [hq]
          | some n => simpa [hq] using parseIntDigits_nonneg qds n hq
        · rw [← hit]
          exact parseMoney_nonneg pds pr hp
      · exact absurd h (by simp)

/-- C7 (counterexample): the claim asserts every parsed item has quantity ≥ 1,
but the quantity pattern `[0-9]{1,3}` matches `"0"`, so the line
`"Water 0 2.00"` produces an item with quantity 0. -/
theorem c7_counterexample :
    (parse_receipt_text "Water 0 2.00".data).items = [⟨"Water".data, 0, 2⟩] ∧
      ¬ ∀ it ∈ (parse_receipt_text "Water 0 2.00".data).items, 1 ≤ it.qty := by
  exact ⟨by decide, by decide⟩

/-- C7 (amended): every element of the items list has an integer quantity ≥ 0
(not ≥ 1) and a non-negative price, and the items appear in the order of their
source lines (the items list is the in-order `filterMap` of the cleaned
lines). -/
theorem c7_items_bounds (text : List Char) :
    (parse_receipt_text text).items = (cleanLines text).filterMap lineItem ∧
      ∀ it ∈ (parse_receipt_text text).items, 0 ≤ it.qty ∧ 0 ≤ it.price := by
  refine ⟨rfl, ?_⟩
  intro it hit
  obtain ⟨ln, _, hli⟩ :=
    List.mem_filterMap.1 (show it ∈ (cleanLines text).filterMap lineItem from hit)
  exact lineItem_bounds ln it hli

/-- C7 (witness): the amended bounds at the concrete parsed item of
`"Water 2 2.00"`. -/
theorem c7_witness :
    (⟨"Water".data, 2, 2⟩ : Item) ∈ (parse_receipt_text "Water 2 2.00".data).items ∧
      (0 ≤ (⟨"Water".data, 2, (2 : ℚ)⟩ : Item).qty ∧
        0 ≤ (⟨"Water".data, 2, (2 : ℚ)⟩ : Item).price) :=
  ⟨by decide, (c7_items_bounds "Water 2 2.00".data).2 _ (by decide)⟩

/-! ### Claim C10 -/

theorem matchLabel_optDash_cons (p : LPat) (c : Char) (cs : List Char) :
    matchLabel (LTok.optDash :: p) (c :: cs)
      = if c = '-' then matchLabel p cs else matchLabel p (c :: cs) := by
  by_cases hc : c = '-'
  · subst hc
    rw [if_pos rfl]
    rfl
  · rw [if_neg hc]
    conv_lhs => unfold matchLabel
    split
    · rename_i s2 heq
      injection heq with hy _
      exact absurd hy hc
    · rfl

theorem matchLabel_append (p q : LPat) : ∀ s : List Char,
    matchLabel (p ++ q) s = (matchLabel p s).bind (matchLabel q) := by
  induction p with
  | nil => intro s; rfl
  | cons t p2 ih =>
    intro s
    cases t with
    | lit a =>
      cases s with
      | nil => rfl
      | cons c cs =>
        show (if lowerC c = a then matchLabel (p2 ++ q) cs else none)
            = (if lowerC c = a then matchLabel p2 cs else none).bind (matchLabel q)
        by_cases hc : lowerC c = a
        · rw [if_pos hc, if_pos hc, ih]
        · rw [if_neg hc, if_neg hc]
          rfl
    | wsStar =>
      show matchLabel (p2 ++ q) (s.dropWhile isSpaceC)
          = (matchLabel p2 (s.dropWhile isSpaceC)).bind (matchLabel q)
      exact ih _
    | optDash =>
      cases s with
      | nil => exact ih []
      | cons c cs =>
        rw [List.cons_append, matchLabel_optDash_cons, matchLabel_optDash_cons]
        by_cases hc : c = '-'
        · rw [if_pos hc, if_pos hc, ih]
        · rw [if_neg hc, if_neg hc, ih]

theorem matchLabel_suffix (p : LPat) : ∀ (s s2 : List Char),
    matchLabel p s = some s2 → s2 <:+ s := by
  induction p with
  | nil =>
    intro s s2 h
    obtain rfl : s = s2 := Option.some.inj h
    exact List.suffix_refl s
  | cons t p2 ih =>
    intro s s2 h
    cases t with
    | lit a =>
      cases s with
      | nil => exact absurd h (by simp [matchLabel])
      | cons c cs =>
        rw [show matchLabel (LTok.lit a :: p2) (c :: cs)
            = (if lowerC c = a then matchLabel p2 cs else none) from rfl] at h
        by_cases hc : lowerC c = a
        · rw [if_pos hc] at h
          exact (ih cs s2 h).trans (List.suffix_cons c cs)
        · rw [if_neg hc] at h
          exact absurd h (by simp)
    | wsStar =>
      exact (ih (s.dropWhile isSpaceC) s2 h).trans (List.dropWhile_suffix isSpaceC)
    | optDash =>
      cases s with
      | nil => exact ih [] s2 h
      | cons c cs =>
        rw [matchLabel_optDash_cons] at h
        by_cases hc : c = '-'
        · rw [if_pos hc] at h
          exact (ih cs s2 h).trans (List.suffix_cons c cs)
        · rw [if_neg hc] at h
          exact ih (c :: cs) s2 h

theorem digit_ne_dot (c : Char) (h : isDigitC c = true) : c ≠ '.' := by
  intro e
  rw [e] at h
  exact absurd h (by decide)

theorem digit_ne_comma (c : Char) (h : isDigitC c = true) : c ≠ ',' := by
  intro e
  rw [e] at h
  exact absurd h (by decide)

theorem map_norm_digits : ∀ l : List Char, (∀ x ∈ l, isDigitC x = true) →
    l.map (fun c => if c = ',' then '.' else c) = l
  | [], _ => rfl
  | c :: cs, h => by
    simp only [List.map_cons, if_neg (digit_ne_comma c (h c (List.mem_cons_self c cs)))]
    rw [map_norm_digits cs (fun x hx => h x (List.mem_cons_of_mem c hx))]

theorem takeWhile_all_eq (p : Char → Bool) : ∀ l : List Char,
    (∀ x ∈ l, p x = true) → l.takeWhile p = l
  | [], _ => rfl
  | c :: cs, h => by
    rw [List.takeWhile_cons, if_pos (h c (List.mem_cons_self c cs)),
      takeWhile_all_eq p cs (fun x hx => h x (List.mem_cons_of_mem c hx))]

theorem takeWhile_append_stop (p : Char → Bool) : ∀ (xs : List Char) (y : Char) (ys : List Char),
    (∀ x ∈ xs, p x = true) → p y = false → (xs ++ y :: ys).takeWhile p = xs
  | [], y, ys, _, hy => by
    rw [List.nil_append, List.takeWhile_cons, if_neg (by simp [hy])]
  | x :: xs, y, ys, hxs, hy => by
    rw [List.cons_append, List.takeWhile_cons, if_pos (hxs x (List.mem_cons_self x xs)),
      takeWhile_append_stop p xs y ys (fun a ha => hxs a (List.mem_cons_of_mem x ha)) hy]

theorem parseMoney_digits (ds : List Char) (h1 : ds.isEmpty = false)
    (h2 : ∀ x ∈ ds, isDigitC x = true) :
    parseMoney ds = some (mkRat (digitsToNat ds) 1) := by
  have hcond : (ds.isEmpty || !ds.all isDigitC) = false := by
    rw [h1, List.all_eq_true.2 h2]
    rfl
  unfold parseMoney
  dsimp only
  rw [map_norm_digits ds h2,
    takeWhile_all_eq (fun c => decide (c ≠ '.')) ds
      (fun x hx => decide_eq_true (digit_ne_dot x (h2 x hx))),
    hcond, List.drop_length]
  rfl

theorem parseMoney_frac (ds : List Char) (c : Char) (fs : List Char)
    (h1 : ds.isEmpty = false) (h2 : ∀ x ∈ ds, isDigitC x = true)
    (hc : c = ',' ∨ c = '.') (h3 : fs.isEmpty = false) (h4 : ∀ x ∈ fs, isDigitC x = true) :
    ∃ v, parseMoney (ds ++ c :: fs) = some v := by
  have hmap : (ds ++ c :: fs).map (fun x => if x = ',' then '.' else x) = ds ++ '.' :: fs := by
    rw [List.map_append, map_norm_digits ds h2, List.map_cons,
      map_norm_digits fs h4]
    rcases hc with rfl | rfl <;> simp
  have hcond : (ds.isEmpty || !ds.all isDigitC) = false := by
    rw [h1, List.all_eq_true.2 h2]
    rfl
  have hcond2 : (!fs.isEmpty && fs.all isDigitC) = true := by
    rw [h3, List.all_eq_true.2 h4]
    rfl
  unfold parseMoney
  dsimp only
  rw [hmap,
    takeWhile_append_stop (fun c => decide (c ≠ '.')) ds '.' fs
      (fun x hx => decide_eq_true (digit_ne_dot x (h2 x hx))) (by decide),
    hcond, List.drop_left]
  dsimp only
  rw [hcond2]
  exact ⟨_, rfl⟩

theorem matchNumber_parses (s tok : List Char) (h : matchNumber s = some tok) :
    ∃ v, parseMoney tok = some v := by
  have hdig : ∀ x ∈ s.takeWhile isDigitC, isDigitC x = true :=
    fun x hx => List.mem_takeWhile_imp hx
  unfold matchNumber at h
  dsimp only at h
  cases hds : (s.takeWhile isDigitC).isEmpty with
  | true => rw [hds] at h; simp at h
  | false =>
    rw [hds] at h
    simp only [Bool.false_eq_true, if_false] at h
    cases hdrop : s.drop (s.takeWhile isDigitC).length with
    | nil =>
      rw [hdrop] at h
      obtain rfl : s.takeWhile isDigitC = tok := Option.some.inj h
      exact ⟨_, parseMoney_digits _ hds hdig⟩
    | cons c r2 =>
      rw [hdrop] at h
      dsimp only at h
      cases hsep : (c = ',' || c = '.') with
      | false =>
        rw [hsep] at h
        simp only [Bool.false_eq_true, if_false] at h
        obtain rfl : s.takeWhile isDigitC = tok := Option.some.inj h
        exact ⟨_, parseMoney_digits _ hds hdig⟩
      | true =>
        rw [hsep] at h
        simp only [if_true] at h
        have hfdig : ∀ x ∈ (r2.takeWhile isDigitC).take 2, isDigitC x = true :=
          fun x hx => List.mem_takeWhile_imp (List.mem_of_mem_take hx)
        cases hfs : ((r2.takeWhile isDigitC).take 2).isEmpty with
        | true =>
          rw [hfs] at h
          simp only [if_true] at h
          obtain rfl : s.takeWhile isDigitC = tok := Option.some.inj h
          exact ⟨_, parseMoney_digits _ hds hdig⟩
        | false =>
          rw [hfs] at h
          simp only [Bool.false_eq_true, if_false] at h
          obtain rfl : s.takeWhile isDigitC ++ c :: (r2.takeWhile isDigitC).take 2 = tok :=
            Option.some.inj h
          exact parseMoney_frac _ c _ hds hdig
            (by simpa [Bool.or_eq_true, decide_eq_true_eq] using hsep) hfs hfdig

theorem searchLabelNum_total_unique (totpart rest2 tok : List Char)
    (h3 : matchLabel (litP "total") totpart = some rest2)
    (h4 : matchAfterLabel rest2 = some tok) :
    ∀ t : List Char, totpart <:+ t →
      (∀ s, s <:+ t → (matchLabel (litP "total") s).isSome = true → s = totpart) →
      searchLabelNum (litP "total") t = some tok := by
  intro t
  induction t with
  | nil =>
    intro hsuf _
    obtain ⟨u, hu⟩ := hsuf
    rw [(List.append_eq_nil.1 hu).2,
      show matchLabel (litP "total") ([] : List Char) = none from by decide] at h3
    exact Option.noConfusion h3
  | cons c t2 ih =>
    intro hsuf huniq
    show (match (matchLabel (litP "total") (c :: t2)).bind matchAfterLabel with
          | some tok2 => some tok2
          | none => searchLabelNum (litP "total") t2) = some tok
    cases hatt : (matchLabel (litP "total") (c :: t2)).bind matchAfterLabel with
    | some x =>
      show some x = some tok
      cases hml : matchLabel (litP "total") (c :: t2) with
      | none => rw [hml] at hatt; exact absurd hatt (by simp)
      | some s2 =>
        have hteq : c :: t2 = totpart :=
          huniq (c :: t2) (List.suffix_refl _) (by rw [hml]; rfl)
        have hs2 : s2 = rest2 := by
          have hml2 := hml
          rw [hteq, h3] at hml2
          exact (Option.some.inj hml2).symm
        rw [hml] at hatt
        simp only [Option.some_bind] at hatt
        rw [hs2, h4] at hatt
        exact (congrArg some (Option.some.inj hatt)).symm
    | none =>
      show searchLabelNum (litP "total") t2 = some tok
      have hne : c :: t2 ≠ totpart := by
        intro e
        rw [e] at hatt
        rw [h3] at hatt
        simp only [Option.some_bind] at hatt
        rw [h4] at hatt
        exact Option.noConfusion hatt
      have hsuf2 : totpart <:+ t2 := by
        obtain ⟨u, hu⟩ := hsuf
        cases u with
        | nil =>
          rw [List.nil_append] at hu
          exact absurd hu.symm hne
        | cons y ys =>
          refine ⟨ys, ?_⟩
          injection hu with _ h2b
      exact ih hsuf2 (fun s hs hm => huniq s (hs.trans (List.suffix_cons c t2)) hm)

theorem searchLabelNum_subtotal_unique (totpart rest2 tok rest0 : List Char)
    (h2 : matchLabel (litP "sub" ++ [LTok.wsStar]) rest0 = some totpart)
    (h3 : matchLabel (litP "total") totpart = some rest2)
    (h4 : matchAfterLabel rest2 = some tok) :
    ∀ t : List Char, rest0 <:+ t →
      (∀ s, s <:+ t → (matchLabel (litP "total") s).isSome = true → s = totpart) →
      searchLabelNum (litP "sub" ++ [LTok.wsStar] ++ litP "total") t = some tok := by
  have hdecomp : ∀ s : List Char,
      matchLabel (litP "sub" ++ [LTok.wsStar] ++ litP "total") s
        = (matchLabel (litP "sub" ++ [LTok.wsStar]) s).bind (matchLabel (litP "total")) := by
    intro s
    exact matchLabel_append _ _ s
  intro t
  induction t with
  | nil =>
    intro hsuf _
    obtain ⟨u, hu⟩ := hsuf
    rw [(List.append_eq_nil.1 hu).2,
      show matchLabel (litP "sub" ++ [LTok.wsStar]) ([] : List Char) = none from by decide] at h2
    exact Option.noConfusion h2
  | cons c t2 ih =>
    intro hsuf huniq
    show (match (matchLabel (litP "sub" ++ [LTok.wsStar] ++ litP "total") (c :: t2)).bind
              matchAfterLabel with
          | some tok2 => some tok2
          | none => searchLabelNum (litP "sub" ++ [LTok.wsStar] ++ litP "total") t2)
        = some tok
    cases hatt : (matchLabel (litP "sub" ++ [LTok.wsStar] ++ litP "total") (c :: t2)).bind
        matchAfterLabel with
    | some x =>
      show some x = some tok
      rw [hdecomp] at hatt
      cases hpre : matchLabel (litP "sub" ++ [LTok.wsStar]) (c :: t2) with
      | none => rw [hpre] at hatt; exact absurd hatt (by simp)
      | some u =>
        rw [hpre] at hatt
        simp only [Option.some_bind] at hatt
        cases hml : matchLabel (litP "total") u with
        | none => rw [hml] at hatt; exact absurd hatt (by simp)
        | some s2 =>
          rw [hml] at hatt
          simp only [Option.some_bind] at hatt
          have hu : u = totpart :=
            huniq u (matchLabel_suffix _ _ _ hpre) (by rw [hml]; rfl)
          have hs2 : s2 = rest2 := by
            have hml2 := hml
            rw [hu, h3] at hml2
            exact (Option.some.inj hml2).symm
          rw [hs2, h4] at hatt
          exact (congrArg some (Option.some.inj hatt)).symm
    | none =>
      show searchLabelNum (litP "sub" ++ [LTok.wsStar] ++ litP "total") t2 = some tok
      have hne : c :: t2 ≠ rest0 := by
        intro e
        rw [e, hdecomp, h2] at hatt
        simp only [Option.some_bind] at hatt
        rw [h3] at hatt
        simp only [Option.some_bind] at hatt
        rw [h4] at hatt
        exact Option.noConfusion hatt
      have hsuf2 : rest0 <:+ t2 := by
        obtain ⟨u, hu⟩ := hsuf
        cases u with
        | nil =>
          rw [List.nil_append] at hu
          exact absurd hu.symm hne
        | cons y ys =>
          refine ⟨ys, ?_⟩
          injection hu with _ h2b
      exact ih hsuf2 (fun s hs hm => huniq s (hs.trans (List.suffix_cons c t2)) hm)

/-- C10: for every input text whose only case-insensitive occurrence of the
substring `"total"` lies inside a `"Sub Total <amount>"` phrase — formalized
as: the text splits as `pre ++ rest`, the label `Sub\s*Total` matches at the
head of `rest` with its `Total` part being the suffix `totpart`, an amount
follows the label (`matchAfterLabel` captures `tok`), and every position of
the text where `total` matches (case-insensitively) is exactly `totpart` —
`parse_receipt_text` sets the total field to that amount, equal to the
subtotal field and not absent: the total synonym matches inside the subtotal
label. -/
theorem c10_total_matches_inside_subtotal
    (text pre rest totpart rest2 tok : List Char)
    (h1 : text = pre ++ rest)
    (h2 : matchLabel (litP "sub" ++ [LTok.wsStar]) rest = some totpart)
    (h3 : matchLabel (litP "total") totpart = some rest2)
    (h4 : matchAfterLabel rest2 = some tok)
    (huniq : ∀ k, k < text.length →
      (matchLabel (litP "total") (text.drop k)).isSome = true → text.drop k = totpart) :
    ∃ v, parseMoney tok = some v ∧
      (parse_receipt_text text).total = some v ∧
      (parse_receipt_text text).subtotal = some v ∧
      (parse_receipt_text text).total = (parse_receipt_text text).subtotal := by
  have huniqS : ∀ s, s <:+ text → (matchLabel (litP "total") s).isSome = true →
      s = totpart := by
    intro s hs hm
    obtain ⟨u, hu⟩ := hs
    have hds : text.drop u.length = s := by
      rw [← hu]
      exact List.drop_left u s
    by_cases hlen : u.length < text.length
    · rw [← hds]
      exact huniq u.length hlen (by rw [hds]; exact hm)
    · have hlens : s.length = 0 := by
        have hl := congrArg List.length hu
        rw [List.length_append] at hl
        omega
      rw [List.eq_nil_of_length_eq_zero hlens] at hm
      exact absurd hm (by decide)
  have hrest_suf : rest <:+ text := ⟨pre, h1.symm⟩
  have htot_suf : totpart <:+ text := (matchLabel_suffix _ _ _ h2).trans hrest_suf
  have hsearchT : searchLabelNum (litP "total") text = some tok :=
    searchLabelNum_total_unique totpart rest2 tok h3 h4 text htot_suf huniqS
  have hsearchS : searchLabelNum (litP "sub" ++ [LTok.wsStar] ++ litP "total") text
      = some tok :=
    searchLabelNum_subtotal_unique totpart rest2 tok rest h2 h3 h4 text hrest_suf huniqS
  obtain ⟨v, hv⟩ : ∃ v, parseMoney tok = some v := by
    unfold matchAfterLabel at h4
    exact matchNumber_parses _ tok h4
  have htotal : (parse_receipt_text text).total = some v := by
    show find_amount totalPats text = some v
    simp only [totalPats, find_amount, hsearchT]
    exact hv
  have hsub : (parse_receipt_text text).subtotal = some v := by
    show find_amount subtotalPats text = some v
    simp only [subtotalPats, find_amount, hsearchS]
    exact hv
  exact ⟨v, hv, htotal, hsub, htotal.trans hsub.symm⟩

/-- C10 (witness): the rule at the concrete text
`"Receipt\nSub Total: 7,25\nCash 9.00"`: an ordinary prefix with no `total`
occurrence, a punctuated label, a comma amount, and trailing text. -/
theorem c10_witness :
    ("Receipt\nSub Total: 7,25\nCash 9.00".data
        = "Receipt\n".data ++ "Sub Total: 7,25\nCash 9.00".data) ∧
      (∀ k, k < "Receipt\nSub Total: 7,25\nCash 9.00".data.length →
        (matchLabel (litP "total")
            ("Receipt\nSub Total: 7,25\nCash 9.00".data.drop k)).isSome = true →
          "Receipt\nSub Total: 7,25\nCash 9.00".data.drop k
            = "Total: 7,25\nCash 9.00".data) ∧
      ∃ v, parseMoney "7,25".data = some v ∧
        (parse_receipt_text "Receipt\nSub Total: 7,25\nCash 9.00".data).total = some v ∧
        (parse_receipt_text "Receipt\nSub Total: 7,25\nCash 9.00".data).subtotal = some v ∧
        (parse_receipt_text "Receipt\nSub Total: 7,25\nCash 9.00".data).total
          = (parse_receipt_text "Receipt\nSub Total: 7,25\nCash 9.00".data).subtotal :=
  ⟨by decide, by decide,
    c10_total_matches_inside_subtotal
      "Receipt\nSub Total: 7,25\nCash 9.00".data
      "Receipt\n".data
      "Sub Total: 7,25\nCash 9.00".data
      "Total: 7,25\nCash 9.00".data
      ": 7,25\nCash 9.00".data
      "7,25".data
      (by decide) (by decide) (by decide) (by decide) (by decide)⟩

/-! ### Claim C5 -/

/-- C5: for every OCR engine (black-box image-to-text function) and every
`ProcessResult`, `ocr_image` returns the trimmed OCR output of `ocr_ready`
when non-empty; otherwise, when `warped` is present, the trimmed OCR output of
`warped` when non-empty; otherwise the trimmed OCR output of `gray`. -/
theorem c5_ocr_fallback_chain (engine : Img → List Char) (r : ProcessResult) :
    ((pyStrip (engine r.ocr_ready)).isEmpty = false →
        ocr_image engine r = pyStrip (engine r.ocr_ready)) ∧
      (∀ w, (pyStrip (engine r.ocr_ready)).isEmpty = true → r.warped = some w →
        (pyStrip (engine w)).isEmpty = false → ocr_image engine r = pyStrip (engine w)) ∧
      ((pyStrip (engine r.ocr_ready)).isEmpty = true → r.warped = none →
        ocr_image engine r = pyStrip (engine r.gray)) ∧
      (∀ w, (pyStrip (engine r.ocr_ready)).isEmpty = true → r.warped = some w →
        (pyStrip (engine w)).isEmpty = true → ocr_image engine r = pyStrip (engine r.gray)) := by
  refine ⟨?_, ?_, ?_, ?_⟩
  · intro h1
    simp [ocr_image, h1]
  · intro w h1 hw h2
    simp [ocr_image, h1, hw, h2]
  · intro h1 hw
    simp [ocr_image, h1, hw]
  · intro w h1 hw h2
    simp [ocr_image, h1, hw, h2]

/-- C5 (witness): the first branch of the fallback chain at a concrete engine
and result. -/
theorem c5_witness :
    (pyStrip ((fun _ => "ok".data) (ProcessResult.mk (Img.src 0) (Img.src 0) none).ocr_ready)).isEmpty
        = false ∧
      ocr_image (fun _ => "ok".data) (ProcessResult.mk (Img.src 0) (Img.src 0) none)
        = pyStrip ((fun _ => "ok".data) (ProcessResult.mk (Img.src 0) (Img.src 0) none).ocr_ready) :=
  ⟨by decide,
    (c5_ocr_fallback_chain (fun _ => "ok".data)
        (ProcessResult.mk (Img.src 0) (Img.src 0) none)).1 (by decide)⟩

/-! ### Claim C2 -/

theorem findSome_isSome_iff {α β : Type} (f : α → Option β) (l : List α) :
    (l.findSome? f).isSome = true ↔ ∃ c ∈ l, (f c).isSome = true := by
  induction l with
  | nil => simp
  | cons a l ih =>
    rw [List.findSome?_cons]
    cases hf : f a with
    | none => simp [hf, ih]
    | some b => simp [hf]

theorem acceptQuad_isSome_iff (cnts : List Contour) :
    (acceptQuad cnts).isSome = true ↔
      ∃ c ∈ (sortByArea cnts).take 10, c.approx.length = 4 := by
  unfold acceptQuad
  rw [findSome_isSome_iff]
  constructor
  · intro ⟨c, hc, hs⟩
    refine ⟨c, hc, ?_⟩
    by_contra hne
    rw [if_neg hne] at hs
    simp at hs
  · intro ⟨c, hc, h4⟩
    exact ⟨c, hc, by rw [if_pos h4]; rfl⟩

/-- C2: for every pipeline run, `ocr_ready` and `gray` are present and
non-null (total fields of the result), and `warped` is present iff one of the
10 largest contours of the edge map was approximated to a polygon with
exactly 4 vertices (the approximation tolerance, 2% of the perimeter, is part
of the `Contour.approx` oracle data); `warped` is null in every other case. -/
theorem c2_warped_iff_quad (image : Img) (cnts : List Contour) (adaptive : Bool) :
    (process image cnts adaptive).gray = Img.grayOf image ∧
      (process image cnts adaptive).warped
        = (acceptQuad cnts).map (four_point_transform (Img.grayOf image)) ∧
      ((process image cnts adaptive).warped.isSome = true ↔
        ∃ c ∈ (sortByArea cnts).take 10, c.approx.length = 4) ∧
      (process image cnts adaptive).ocr_ready
        = Img.morphOf (if adaptive
            then Img.threshAdaptiveOf
              (((acceptQuad cnts).map (four_point_transform (Img.grayOf image))).getD
                (Img.grayOf image))
            else Img.threshOtsuOf
              (((acceptQuad cnts).map (four_point_transform (Img.grayOf image))).getD
                (Img.grayOf image))) := by
  refine ⟨rfl, rfl, ?_, ?_⟩
  · show ((acceptQuad cnts).map (four_point_transform (Img.grayOf image))).isSome = true ↔ _
    rw [show (Option.map (four_point_transform (Img.grayOf image)) (acceptQuad cnts)).isSome
        = (acceptQuad cnts).isSome from by cases acceptQuad cnts <;> rfl]
    exact acceptQuad_isSome_iff cnts
  · cases adaptive <;> rfl

/-! ### argmin / argmax lemmas for `order_points` -/

theorem firstMinBy_cons_isSome {α : Type} (f : α → ℚ) (p : α) (l : List α) :
    (firstMinBy f (p :: l)).isSome = true := by
  cases h : firstMinBy f l <;> simp [firstMinBy, h]

theorem firstMaxBy_cons_isSome {α : Type} (f : α → ℚ) (p : α) (l : List α) :
    (firstMaxBy f (p :: l)).isSome = true := by
  cases h : firstMaxBy f l <;> simp [firstMaxBy, h]

theorem firstMinBy_mem {α : Type} (f : α → ℚ) (l : List α) (a : α)
    (h : firstMinBy f l = some a) : a ∈ l := by
  induction l generalizing a with
  | nil => simp [firstMinBy] at h
  | cons p rest ih =>
    cases hr : firstMinBy f rest with
    | none =>
      simp only [firstMinBy, hr] at h
      exact (Option.some.inj h) ▸ List.mem_cons_self p rest
    | some q =>
      simp only [firstMinBy, hr] at h
      have := Option.some.inj h
      split at this
      · exact this ▸ List.mem_cons_self p rest
      · exact this ▸ List.mem_cons_of_mem p (ih q hr)

theorem firstMaxBy_mem {α : Type} (f : α → ℚ) (l : List α) (a : α)
    (h : firstMaxBy f l = some a) : a ∈ l := by
  induction l generalizing a with
  | nil => simp [firstMaxBy] at h
  | cons p rest ih =>
    cases hr : firstMaxBy f rest with
    | none =>
      simp only [firstMaxBy, hr] at h
      exact (Option.some.inj h) ▸ List.mem_cons_self p rest
    | some q =>
      simp only [firstMaxBy, hr] at h
      have := Option.some.inj h
      split at this
      · exact this ▸ List.mem_cons_self p rest
      · exact this ▸ List.mem_cons_of_mem p (ih q hr)

theorem firstMinBy_eq_none {α : Type} (f : α → ℚ) (l : List α)
    (h : firstMinBy f l = none) : l = [] := by
  cases l with
  | nil => rfl
  | cons p rest =>
    have := firstMinBy_cons_isSome f p rest
    rw [h] at this
    simp at this

theorem firstMaxBy_eq_none {α : Type} (f : α → ℚ) (l : List α)
    (h : firstMaxBy f l = none) : l = [] := by
  cases l with
  | nil => rfl
  | cons p rest =>
    have := firstMaxBy_cons_isSome f p rest
    rw [h] at this
    simp at this

theorem firstMinBy_le {α : Type} (f : α → ℚ) (l : List α) (a : α)
    (h : firstMinBy f l = some a) : ∀ x ∈ l, f a ≤ f x := by
  induction l generalizing a with
  | nil => intro x hx; exact absurd hx (List.not_mem_nil x)
  | cons p rest ih =>
    intro x hx
    cases hr : firstMinBy f rest with
    | none =>
      have hrest := firstMinBy_eq_none f rest hr
      subst hrest
      simp only [firstMinBy, hr] at h
      have ha := Option.some.inj h
      subst ha
      rcases List.mem_cons.1 hx with h1 | h1
      · exact h1 ▸ le_refl _
      · exact absurd h1 (List.not_mem_nil x)
    | some q =>
      simp only [firstMinBy, hr] at h
      have ha := Option.some.inj h
      rcases List.mem_cons.1 hx with h1 | h1
      · split at ha
        · rw [h1, ← ha]
        · rw [h1, ← ha]
          exact le_of_lt (lt_of_not_le (by assumption))
      · split at ha
        · rw [← ha]
          exact le_trans (by assumption) (ih q hr x h1)
        · rw [← ha]
          exact ih q hr x h1

theorem firstMaxBy_ge {α : Type} (f : α → ℚ) (l : List α) (a : α)
    (h : firstMaxBy f l = some a) : ∀ x ∈ l, f x ≤ f a := by
  induction l generalizing a with
  | nil => intro x hx; exact absurd hx (List.not_mem_nil x)
  | cons p rest ih =>
    intro x hx
    cases hr : firstMaxBy f rest with
    | none =>
      have hrest := firstMaxBy_eq_none f rest hr
      subst hrest
      simp only [firstMaxBy, hr] at h
      have ha := Option.some.inj h
      subst ha
      rcases List.mem_cons.1 hx with h1 | h1
      · exact h1 ▸ le_refl _
      · exact absurd h1 (List.not_mem_nil x)
    | some q =>
      simp only [firstMaxBy, hr] at h
      have ha := Option.some.inj h
      rcases List.mem_cons.1 hx with h1 | h1
      · split at ha
        · rw [h1, ← ha]
        · rw [h1, ← ha]
          exact le_of_lt (lt_of_not_le (by assumption))
      · split at ha
        · rw [← ha]
          exact le_trans (ih q hr x h1) (by assumption)
        · rw [← ha]
          exact ih q hr x h1

/-! ### Claim C8 -/

/-- C8 (counterexample): the claim says the second returned point (top-right)
minimizes x−y; on the unit square the code returns `(1,0)` in that slot (it
minimizes y−x, i.e. maximizes x−y), which does not minimize x−y over the
input (the point `(0,1)` has a smaller x−y). -/
theorem c8_counterexample :
    order_points [((0:ℚ), (0:ℚ)), (1, 0), (1, 1), (0, 1)]
        = [(0, 0), (1, 0), (1, 1), (0, 1)] ∧
      ¬ ∀ p ∈ ([((0:ℚ), (0:ℚ)), (1, 0), (1, 1), (0, 1)] : List Pt),
          ((order_points [((0:ℚ), (0:ℚ)), (1, 0), (1, 1), (0, 1)]).getD 1 zeroPt).1
              - ((order_points [((0:ℚ), (0:ℚ)), (1, 0), (1, 1), (0, 1)]).getD 1 zeroPt).2
            ≤ p.1 - p.2 := by
  constructor
  · with_unfolding_all decide
  · with_unfolding_all decide

/-- C8 (amended): on every 4-point input, `order_points` returns
`[tl, tr, br, bl]` where `tl` minimizes x+y, `br` maximizes x+y, `tr`
MAXIMIZES x−y (equivalently minimizes y−x), and `bl` MINIMIZES x−y
(equivalently maximizes y−x) — the claim had the tr/bl extrema swapped. -/
theorem c8_order_points_extremes (pts : List Pt) (h : pts.length = 4) :
    ∃ tl tr br bl, order_points pts = [tl, tr, br, bl] ∧
      tl ∈ pts ∧ (∀ p ∈ pts, tl.1 + tl.2 ≤ p.1 + p.2) ∧
      br ∈ pts ∧ (∀ p ∈ pts, p.1 + p.2 ≤ br.1 + br.2) ∧
      tr ∈ pts ∧ (∀ p ∈ pts, p.1 - p.2 ≤ tr.1 - tr.2) ∧
      bl ∈ pts ∧ (∀ p ∈ pts, bl.1 - bl.2 ≤ p.1 - p.2) := by
  cases pts with
  | nil => simp at h
  | cons p rest =>
    obtain ⟨tl, htl⟩ := Option.isSome_iff_exists.1 (firstMinBy_cons_isSome ptSum p rest)
    obtain ⟨tr, htr⟩ := Option.isSome_iff_exists.1 (firstMinBy_cons_isSome ptDiff p rest)
    obtain ⟨br, hbr⟩ := Option.isSome_iff_exists.1 (firstMaxBy_cons_isSome ptSum p rest)
    obtain ⟨bl, hbl⟩ := Option.isSome_iff_exists.1 (firstMaxBy_cons_isSome ptDiff p rest)
    refine ⟨tl, tr, br, bl, ?_, firstMinBy_mem _ _ _ htl, ?_, firstMaxBy_mem _ _ _ hbr, ?_,
      firstMinBy_mem _ _ _ htr, ?_, firstMaxBy_mem _ _ _ hbl, ?_⟩
    · simp [order_points, htl, htr, hbr, hbl]
    · intro x hx
      exact firstMinBy_le ptSum _ tl htl x hx
    · intro x hx
      exact firstMaxBy_ge ptSum _ br hbr x hx
    · intro x hx
      have := firstMinBy_le ptDiff _ tr htr x hx
      simp only [ptDiff] at this
      linarith
    · intro x hx
      have := firstMaxBy_ge ptDiff _ bl hbl x hx
      simp only [ptDiff] at this
      linarith

/-- C8 (witness): the amended extremal characterization at four concrete
points. -/
theorem c8_witness :
    ([((0:ℚ), (0:ℚ)), (3, 1), (5, 4), (1, 2)] : List Pt).length = 4 ∧
      ∃ tl tr br bl,
        order_points [((0:ℚ), (0:ℚ)), (3, 1), (5, 4), (1, 2)] = [tl, tr, br, bl] ∧
        tl ∈ ([((0:ℚ), (0:ℚ)), (3, 1), (5, 4), (1, 2)] : List Pt) ∧
        (∀ p ∈ ([((0:ℚ), (0:ℚ)), (3, 1), (5, 4), (1, 2)] : List Pt),
          tl.1 + tl.2 ≤ p.1 + p.2) ∧
        br ∈ ([((0:ℚ), (0:ℚ)), (3, 1), (5, 4), (1, 2)] : List Pt) ∧
        (∀ p ∈ ([((0:ℚ), (0:ℚ)), (3, 1), (5, 4), (1, 2)] : List Pt),
          p.1 + p.2 ≤ br.1 + br.2) ∧
        tr ∈ ([((0:ℚ), (0:ℚ)), (3, 1), (5, 4), (1, 2)] : List Pt) ∧
        (∀ p ∈ ([((0:ℚ), (0:ℚ)), (3, 1), (5, 4), (1, 2)] : List Pt),
          p.1 - p.2 ≤ tr.1 - tr.2) ∧
        bl ∈ ([((0:ℚ), (0:ℚ)), (3, 1), (5, 4), (1, 2)] : List Pt) ∧
        (∀ p ∈ ([((0:ℚ), (0:ℚ)), (3, 1), (5, 4), (1, 2)] : List Pt),
          bl.1 - bl.2 ≤ p.1 - p.2) :=
  ⟨by decide, c8_order_points_extremes _ (by decide)⟩

/-! ### Claim C9 -/

theorem firstMinBy_quad_head {α : Type} (f : α → ℚ) (a b c d : α)
    (hb : f a ≤ f b) (hc : f a ≤ f c) (hd : f a ≤ f d) :
    firstMinBy f [a, b, c, d] = some a := by
  simp only [firstMinBy]
  split_ifs <;> first | rfl | (exfalso; linarith)

theorem firstMinBy_quad_second {α : Type} (f : α → ℚ) (a b c d : α)
    (hba : f b ≤ f a) (hbc : f b ≤ f c) (hbd : f b ≤ f d)
    (heq : f a ≤ f b → a = b) :
    firstMinBy f [a, b, c, d] = some b := by
  simp only [firstMinBy]
  split_ifs <;>
    first
      | rfl
      | (exact congrArg some (heq (by linarith)))
      | (exfalso; linarith)

theorem firstMaxBy_quad_third {α : Type} (f : α → ℚ) (a b c d : α)
    (hca : f a ≤ f c) (hcb : f b ≤ f c) (hcd : f d ≤ f c)
    (heqa : f c ≤ f a → a = c) (heqb : f c ≤ f b → b = c) :
    firstMaxBy f [a, b, c, d] = some c := by
  simp only [firstMaxBy]
  split_ifs <;>
    first
      | rfl
      | (exact congrArg some (heqa (by linarith)))
      | (exact congrArg some (heqb (by linarith)))
      | (exfalso; linarith)

theorem firstMaxBy_quad_fourth {α : Type} (f : α → ℚ) (a b c d : α)
    (hda : f a ≤ f d) (hdb : f b ≤ f d) (hdc : f c ≤ f d)
    (heqa : f d ≤ f a → a = d) (heqb : f d ≤ f b → b = d) (heqc : f d ≤ f c → c = d) :
    firstMaxBy f [a, b, c, d] = some d := by
  simp only [firstMaxBy]
  split_ifs <;>
    first
      | rfl
      | (exact congrArg some (heqa (by linarith)))
      | (exact congrArg some (heqb (by linarith)))
      | (exact congrArg some (heqc (by linarith)))
      | (exfalso; linarith)

/-- C9 (counterexample): idempotence fails as claimed.  The list
`[(0,0), (5,−1), (4,0), (0,3)]` is itself an output of `order_points`
(first conjunct), yet applying `order_points` to it changes it: the points
`(5,−1)` and `(4,0)` tie on x+y, and the tie is resolved to the earlier
`(5,−1)`, which occupies the top-right slot after the first application. -/
theorem c9_counterexample :
    order_points [((0:ℚ), (0:ℚ)), (4, 0), (5, -1), (0, 3)]
        = [(0, 0), (5, -1), (4, 0), (0, 3)] ∧
      order_points [((0:ℚ), (0:ℚ)), (5, -1), (4, 0), (0, 3)]
        ≠ [(0, 0), (5, -1), (4, 0), (0, 3)] := by
  constructor
  · with_unfolding_all decide
  · with_unfolding_all decide

/-- C9 (amended): `order_points` is idempotent on every 4-point input whose
x+y values are pairwise distinct and whose y−x values are pairwise distinct
(no ties among the corner scores); the counterexample shows the restriction
is necessary. -/
theorem c9_idempotent_of_distinct (pts : List Pt) (h4 : pts.length = 4)
    (hS : ∀ p ∈ pts, ∀ q ∈ pts, p.1 + p.2 = q.1 + q.2 → p = q)
    (hD : ∀ p ∈ pts, ∀ q ∈ pts, p.2 - p.1 = q.2 - q.1 → p = q) :
    order_points (order_points pts) = order_points pts := by
  cases pts with
  | nil => simp at h4
  | cons p0 rest =>
    obtain ⟨a, ha⟩ := Option.isSome_iff_exists.1 (firstMinBy_cons_isSome ptSum p0 rest)
    obtain ⟨b, hb⟩ := Option.isSome_iff_exists.1 (firstMinBy_cons_isSome ptDiff p0 rest)
    obtain ⟨c, hc⟩ := Option.isSome_iff_exists.1 (firstMaxBy_cons_isSome ptSum p0 rest)
    obtain ⟨d, hd⟩ := Option.isSome_iff_exists.1 (firstMaxBy_cons_isSome ptDiff p0 rest)
    have hma : a ∈ p0 :: rest := firstMinBy_mem _ _ _ ha
    have hmb : b ∈ p0 :: rest := firstMinBy_mem _ _ _ hb
    have hmc : c ∈ p0 :: rest := firstMaxBy_mem _ _ _ hc
    have hmd : d ∈ p0 :: rest := firstMaxBy_mem _ _ _ hd
    have haS : ∀ x ∈ p0 :: rest, ptSum a ≤ ptSum x := firstMinBy_le ptSum _ a ha
    have hbD : ∀ x ∈ p0 :: rest, ptDiff b ≤ ptDiff x := firstMinBy_le ptDiff _ b hb
    have hcS : ∀ x ∈ p0 :: rest, ptSum x ≤ ptSum c := firstMaxBy_ge ptSum _ c hc
    have hdD : ∀ x ∈ p0 :: rest, ptDiff x ≤ ptDiff d := firstMaxBy_ge ptDiff _ d hd
    have hR : order_points (p0 :: rest) = [a, b, c, d] := by
      simp [order_points, ha, hb, hc, hd]
    rw [hR]
    have e1 : firstMinBy ptSum [a, b, c, d] = some a :=
      firstMinBy_quad_head ptSum a b c d (haS b hmb) (haS c hmc) (haS d hmd)
    have e2 : firstMinBy ptDiff [a, b, c, d] = some b :=
      firstMinBy_quad_second ptDiff a b c d (hbD a hma) (hbD c hmc) (hbD d hmd)
        (fun hle => hD a hma b hmb (le_antisymm hle (hbD a hma)))
    have e3 : firstMaxBy ptSum [a, b, c, d] = some c :=
      firstMaxBy_quad_third ptSum a b c d (hcS a hma) (hcS b hmb) (hcS d hmd)
        (fun hle => hS a hma c hmc (le_antisymm (hcS a hma) hle))
        (fun hle => hS b hmb c hmc (le_antisymm (hcS b hmb) hle))
    have e4 : firstMaxBy ptDiff [a, b, c, d] = some d :=
      firstMaxBy_quad_fourth ptDiff a b c d (hdD a hma) (hdD b hmb) (hdD c hmc)
        (fun hle => hD a hma d hmd (le_antisymm (hdD a hma) hle))
        (fun hle => hD b hmb d hmd (le_antisymm (hdD b hmb) hle))
        (fun hle => hD c hmc d hmd (le_antisymm (hdD c hmc) hle))
    simp [order_points, e1, e2, e3, e4]

/-- C9 (witness): idempotence at four concrete points with pairwise distinct
corner scores. -/
theorem c9_witness :
    (([((0:ℚ), (0:ℚ)), (3, 1), (5, 4), (1, 2)] : List Pt).length = 4 ∧
        (∀ p ∈ ([((0:ℚ), (0:ℚ)), (3, 1), (5, 4), (1, 2)] : List Pt),
          ∀ q ∈ ([((0:ℚ), (0:ℚ)), (3, 1), (5, 4), (1, 2)] : List Pt),
            p.1 + p.2 = q.1 + q.2 → p = q) ∧
        (∀ p ∈ ([((0:ℚ), (0:ℚ)), (3, 1), (5, 4), (1, 2)] : List Pt),
          ∀ q ∈ ([((0:ℚ), (0:ℚ)), (3, 1), (5, 4), (1, 2)] : List Pt),
            p.2 - p.1 = q.2 - q.1 → p = q)) ∧
      order_points (order_points [((0:ℚ), (0:ℚ)), (3, 1), (5, 4), (1, 2)])
        = order_points [((0:ℚ), (0:ℚ)), (3, 1), (5, 4), (1, 2)] :=
  ⟨⟨by decide, by with_unfolding_all decide, by with_unfolding_all decide⟩,
    c9_idempotent_of_distinct _ (by decide) (by with_unfolding_all decide)
      (by with_unfolding_all decide)⟩

end Receipt
